import Mathlib

/-!
Verification of the `workspacectl` record store (`src/workspace.rs`) and
pointer store (`src/cache.rs`): path resolution, name validation, create,
read and list over a model filesystem, and the cache key-value files.

External collaborators are modelled at their contract level: the OS
filesystem is a finite map from resolved absolute paths to file data plus a
set of directories, `dirs::config_dir`/`dirs::cache_dir` are fixed base
directories, the `toml` crate is an encoder/decoder over the TOML data
model, and `atomicwrites` is insert-if-absent (hard-link semantics for
`DisallowOverwrite`) or replace (rename semantics for `AllowOverwrite`).
Rust `Path` operations (`is_relative`, `join`, `with_extension`, `parent`,
`file_name`) are translated component by component.
-/

namespace Wsctl

/-! ## Characters -/

/-- Unicode code points with the White_Space property, as tested by Rust
`char::is_whitespace` (reached through `str::trim` in `cache.rs`). -/
def whitespaceCodes : List Nat :=
  [0x09, 0x0A, 0x0B, 0x0C, 0x0D, 0x20, 0x85, 0xA0, 0x1680,
   0x2000, 0x2001, 0x2002, 0x2003, 0x2004, 0x2005, 0x2006, 0x2007,
   0x2008, 0x2009, 0x200A, 0x2028, 0x2029, 0x202F, 0x205F, 0x3000]

def rustIsWhitespace (c : Char) : Bool := whitespaceCodes.contains c.toNat

/-- Rust `char::is_ascii_control`: U+0000..=U+001F and U+007F. -/
def rustIsAsciiControl (c : Char) : Bool := c.toNat ≤ 0x1F || c.toNat == 0x7F

/-- `FORBIDDEN_CHARACTERS` from `workspace.rs`. -/
def forbiddenCharacters : List Char :=
  ['\n', '\r', '\t', '\x00', '<', '>', ':', '\"', '|', '?', '*']

def isForbidden (c : Char) : Bool := forbiddenCharacters.contains c

/-- Rust `str::trim` on the character list. -/
def trimChars (l : List Char) : List Char :=
  ((l.dropWhile rustIsWhitespace).reverse.dropWhile rustIsWhitespace).reverse

/-- Rust `str::trim`. -/
def rustTrim (s : String) : String := String.mk (trimChars s.toList)

/-! ## Paths

A `RawPath` is a path string as the OS sees it: an absolute flag plus the
`/`-separated segments, empty segments dropped (`a//b` opens the same file
as `a/b`), `.` and `..` kept literally until resolution. -/

structure RawPath where
  abs : Bool
  comps : List String
  deriving Repr, DecidableEq

/-- Split a character list on `/`, accumulating the current segment. -/
def splitSeg : List Char → List Char → List (List Char)
  | [], acc => [acc.reverse]
  | c :: rest, acc =>
      if c = '/' then acc.reverse :: splitSeg rest [] else splitSeg rest (c :: acc)

def parsePath (s : String) : RawPath :=
  { abs := s.toList.head? == some '/'
    comps := ((splitSeg s.toList []).map String.mk).filter (· ≠ "") }

/-- Rust `Path::file_name`: the last normal component; `none` when the path
ends in `..`, or has no normal component at all. -/
def fileName (p : RawPath) : Option String :=
  match (p.comps.filter (· ≠ ".")).getLast? with
  | none => none
  | some x => if x = ".." then none else some x

/-- Index of the last `.` inside a file name, if any. -/
def lastDotIdx (cs : List Char) : Option Nat :=
  (cs.reverse.findIdx? (· == '.')).map (fun j => cs.length - 1 - j)

/-- Rust `Path::file_stem` restricted to a file name: everything before the
last `.`, except that a file name whose only `.` is the leading one is all
stem. -/
def fileStem (fn : String) : String :=
  match lastDotIdx fn.toList with
  | none => fn
  | some 0 => fn
  | some i => String.mk (fn.toList.take i)

/-- Rust `PathBuf::set_extension` applied to a file name. -/
def setExt (fn ext : String) : String := fileStem fn ++ "." ++ ext

def dropTrailingDots (l : List String) : List String :=
  (l.reverse.dropWhile (· == ".")).reverse

/-- Rust `Path::with_extension`: replace the extension of the file-name
component (no change when the path has no file name). -/
def withExtension (p : RawPath) (ext : String) : RawPath :=
  match fileName p with
  | none => p
  | some fn =>
      { abs := p.abs, comps := (dropTrailingDots p.comps).dropLast ++ [setExt fn ext] }

/-- Rust `Path::join`. -/
def rawJoin (p q : RawPath) : RawPath :=
  if q.abs then q else { abs := p.abs, comps := p.comps ++ q.comps }

/-- Rust `Path::parent`: drop the last component of any kind. -/
def parent (p : RawPath) : Option RawPath :=
  match p.comps with
  | [] => none
  | _ :: _ => some { abs := p.abs, comps := p.comps.dropLast }

/-- Resolved absolute path: components from the filesystem root after
eliminating `.` and `..`. -/
abbrev AbsPath := List String

/-- One component step of path resolution: `.` stays, `..` goes up, a
normal component descends. -/
def stepComp (pos : AbsPath) (c : String) : AbsPath :=
  if c = "." then pos else if c = ".." then pos.dropLast else pos ++ [c]

/-- Resolve `.` and `..` in the components of an absolute path, the way the
kernel resolves them when the traversed directories exist (no symlinks). -/
def resolveComps (l : List String) : AbsPath :=
  l.foldl stepComp []

/-! ## Base directories -/

/-- Model of `dirs::config_dir()` for a fixed user. -/
def configDir : RawPath := ⟨true, ["home", "user", ".config"]⟩

/-- `workspace::dir_path`: the record store root. -/
def dir_path : RawPath := ⟨true, configDir.comps ++ ["workspacectl"]⟩

/-- Model of `dirs::cache_dir()` for the same user. -/
def cacheBaseDir : RawPath := ⟨true, ["home", "user", ".cache"]⟩

/-- `cache::dir_path`: the pointer store directory. -/
def cacheDirPath : RawPath := ⟨true, cacheBaseDir.comps ++ ["workspacectl"]⟩

/-! ## Record data model (`src/workspace/data.rs`) -/

structure Ssh where
  command : Option String
  user : Option String
  host : String
  port : Option (Fin 65536)
  identity_file : Option String
  deriving Repr, DecidableEq

structure Editor where
  command : String
  deriving Repr, DecidableEq

structure Shell where
  command : String
  deriving Repr, DecidableEq

structure Workspace where
  name : String
  dir : String
  ssh : Option Ssh
  editor : Option Editor
  shell : Option Shell
  deriving Repr, DecidableEq

/-! ## TOML layer

The fragment of the TOML data model exercised by `Workspace`: strings,
integers and tables. Serialization and deserialization mirror the
serde-derived code: fields in declaration order, `None` fields omitted,
`name` carrying `serde(skip)` on both directions, unknown keys ignored. -/

inductive TomlVal where
  | str (s : String)
  | int (n : Int)
  | table (kvs : List (String × TomlVal))
  deriving Repr

abbrev TomlDoc := List (String × TomlVal)

mutual

def tomlValBeq : TomlVal → TomlVal → Bool
  | .str a, .str b => a == b
  | .int a, .int b => a == b
  | .table a, .table b => tomlDocBeq a b
  | _, _ => false

def tomlDocBeq : List (String × TomlVal) → List (String × TomlVal) → Bool
  | [], [] => true
  | (k, v) :: r, (k', v') :: r' => k == k' && tomlValBeq v v' && tomlDocBeq r r'
  | _, _ => false

end

mutual

theorem tomlValBeq_eq : ∀ a b : TomlVal, tomlValBeq a b = true ↔ a = b
  | .str _, .str _ => by simp [tomlValBeq]
  | .str _, .int _ => by simp [tomlValBeq]
  | .str _, .table _ => by simp [tomlValBeq]
  | .int _, .str _ => by simp [tomlValBeq]
  | .int _, .int _ => by simp [tomlValBeq]
  | .int _, .table _ => by simp [tomlValBeq]
  | .table _, .str _ => by simp [tomlValBeq]
  | .table _, .int _ => by simp [tomlValBeq]
  | .table a, .table b => by
      simp only [tomlValBeq, tomlDocBeq_eq a b, TomlVal.table.injEq]

theorem tomlDocBeq_eq : ∀ a b : List (String × TomlVal), tomlDocBeq a b = true ↔ a = b
  | [], [] => by simp [tomlDocBeq]
  | [], _ :: _ => by simp [tomlDocBeq]
  | _ :: _, [] => by simp [tomlDocBeq]
  | (k, v) :: r, (k', v') :: r' => by
      simp [tomlDocBeq, tomlValBeq_eq v v', tomlDocBeq_eq r r', Prod.ext_iff,
        and_assoc]

end

instance : DecidableEq TomlVal := fun a b =>
  decidable_of_iff (tomlValBeq a b = true) (tomlValBeq_eq a b)

def optField (k : String) : Option TomlVal → TomlDoc
  | none => []
  | some v => [(k, v)]

def encodeSsh (s : Ssh) : TomlDoc :=
  optField "command" (s.command.map .str) ++ optField "user" (s.user.map .str)
    ++ [("host", .str s.host)]
    ++ optField "port" (s.port.map (fun p => .int (Int.ofNat p.val)))
    ++ optField "identity_file" (s.identity_file.map .str)

def encodeEditor (e : Editor) : TomlDoc := [("command", .str e.command)]

def encodeShell (e : Shell) : TomlDoc := [("command", .str e.command)]

/-- `toml::to_string_pretty` of a record, at the TOML data-model level; the
`name` field is never written. -/
def encodeWorkspace (w : Workspace) : TomlDoc :=
  [("dir", .str w.dir)] ++ optField "ssh" (w.ssh.map (fun s => .table (encodeSsh s)))
    ++ optField "editor" (w.editor.map (fun e => .table (encodeEditor e)))
    ++ optField "shell" (w.shell.map (fun e => .table (encodeShell e)))

/-- Error taxonomy of the spec: validation, not-found, already-exists,
parse/encoding, io. -/
inductive Err where
  | validation
  | notFound
  | alreadyExists
  | parse
  | encoding
  | io
  deriving Repr, DecidableEq

def lookupKey : TomlDoc → String → Option TomlVal
  | [], _ => none
  | (k, v) :: rest, key => if k = key then some v else lookupKey rest key

def reqStr (doc : TomlDoc) (k : String) : Except Err String :=
  match lookupKey doc k with
  | some (.str s) => .ok s
  | _ => .error .parse

def optStr (doc : TomlDoc) (k : String) : Except Err (Option String) :=
  match lookupKey doc k with
  | none => .ok none
  | some (.str s) => .ok (some s)
  | some _ => .error .parse

def optU16 (doc : TomlDoc) (k : String) : Except Err (Option (Fin 65536)) :=
  match lookupKey doc k with
  | none => .ok none
  | some (.int (.ofNat m)) =>
      if h : m < 65536 then .ok (some ⟨m, h⟩) else .error .parse
  | some (.int (.negSucc _)) => .error .parse
  | some _ => .error .parse

def optTable (doc : TomlDoc) (k : String) : Except Err (Option TomlDoc) :=
  match lookupKey doc k with
  | none => .ok none
  | some (.table t) => .ok (some t)
  | some _ => .error .parse

def decodeSsh (doc : TomlDoc) : Except Err Ssh := do
  let command ← optStr doc "command"
  let user ← optStr doc "user"
  let host ← reqStr doc "host"
  let port ← optU16 doc "port"
  let identity_file ← optStr doc "identity_file"
  pure { command, user, host, port, identity_file }

def decodeEditor (doc : TomlDoc) : Except Err Editor := do
  pure { command := ← reqStr doc "command" }

def decodeShell (doc : TomlDoc) : Except Err Shell := do
  pure { command := ← reqStr doc "command" }

def decodeOptPart {α : Type} (f : TomlDoc → Except Err α) :
    Option TomlDoc → Except Err (Option α)
  | none => .ok none
  | some t => (f t).map some

/-- `toml::from_str::<Workspace>` at the TOML data-model level: `name` has
`serde(skip)` and defaults to the empty string; unknown keys are ignored. -/
def decodeWorkspace (doc : TomlDoc) : Except Err Workspace := do
  let dir ← reqStr doc "dir"
  let ssh ← decodeOptPart decodeSsh (← optTable doc "ssh")
  let editor ← decodeOptPart decodeEditor (← optTable doc "editor")
  let shell ← decodeOptPart decodeShell (← optTable doc "shell")
  pure { name := "", dir, ssh, editor, shell }

/-! ## Model filesystem -/

inductive FileData where
  | text (s : String)
  | toml (doc : TomlDoc)
  deriving Repr, DecidableEq

structure Fs where
  files : List (AbsPath × FileData)
  dirs : List AbsPath
  deriving Repr, DecidableEq

def lookupFile : List (AbsPath × FileData) → AbsPath → Option FileData
  | [], _ => none
  | (p, d) :: rest, q => if p = q then some d else lookupFile rest q

def Fs.fileAt (fs : Fs) (p : AbsPath) : Option FileData := lookupFile fs.files p

def Fs.isDir (fs : Fs) (p : AbsPath) : Bool := fs.dirs.contains p

/-- `std::fs::read_to_string` over the model filesystem. -/
def readToString (fs : Fs) (p : AbsPath) : Except Err FileData :=
  match fs.fileAt p with
  | some d => .ok d
  | none => if fs.isDir p then .error .io else .error .notFound

/-- One step of `create_dir_all`: enter component `c` from resolved
position `pos`, creating the directory there unless a file is in the way. -/
def createDirAllGo (fs : Fs) (pos : AbsPath) : List String → Except Err Fs
  | [] => .ok fs
  | c :: rest =>
      if (fs.fileAt (stepComp pos c)).isSome then .error .io
      else
        createDirAllGo
          (if fs.isDir (stepComp pos c) then fs
            else { fs with dirs := stepComp pos c :: fs.dirs })
          (stepComp pos c) rest

/-- `std::fs::create_dir_all` on an absolute raw path. -/
def createDirAll (fs : Fs) (raw : List String) : Except Err Fs :=
  createDirAllGo fs [] raw

/-- `atomicwrites::AtomicFile` with `DisallowOverwrite`: temp file plus hard
link, so any existing entry at the target — regular file or directory —
surfaces as the already-exists failure; otherwise the new file appears in
one atomic step. -/
def atomicWriteNew (fs : Fs) (p : AbsPath) (d : FileData) : Except Err Fs :=
  if (fs.fileAt p).isSome || fs.isDir p then .error .alreadyExists
  else .ok { fs with files := (p, d) :: fs.files }

/-- `AtomicFile` with `AllowOverwrite`: rename over the target, replacing a
regular file but failing on a directory. -/
def atomicWriteOver (fs : Fs) (p : AbsPath) (d : FileData) : Except Err Fs :=
  if fs.isDir p then .error .io
  else .ok { fs with files := (p, d) :: fs.files }

/-! ## Record store operations (`src/workspace.rs`) -/

/-- `workspace::file_path`: the three name preconditions, then
`dir.join(name).with_extension("toml")`. -/
def file_path (name : String) : Except Err RawPath :=
  if name.toList.any rustIsAsciiControl then .error .validation
  else if name.toList.any isForbidden then .error .validation
  else if (parsePath name).abs then .error .validation
  else .ok (withExtension (rawJoin dir_path (parsePath name)) "toml")

/-- `workspace::read`: re-derive the path (only the relative-path check is
repeated here), read the file, decode the body, then overwrite the
serde-defaulted empty name with the name argument. -/
def wsRead (fs : Fs) (name : String) : Except Err Workspace :=
  let p := withExtension (parsePath name) "toml"
  if p.abs then .error .validation
  else
    match readToString fs (resolveComps (rawJoin dir_path p).comps) with
    | .error e => .error e
    | .ok (.text _) => .error .parse
    | .ok (.toml doc) =>
        match decodeWorkspace doc with
        | .error e => .error e
        | .ok w => .ok { w with name := w.name ++ name }

inductive CreateResult where
  | panics
  | err (e : Err)
  | ok (fs : Fs)
  deriving Repr, DecidableEq

/-- `workspace::create`: validate and resolve the name, create missing
parent directories, serialize the body, write with create-only atomic
semantics. The `panics` outcome marks the two process-aborting branches of
the source: a resolved path with no parent, and a record body the `toml`
serializer rejects (the model serializer is total, matching the
serializability of every `Workspace` value). -/
def wsCreate (fs : Fs) (w : Workspace) : CreateResult :=
  match file_path w.name with
  | .error e => .err e
  | .ok p =>
      match parent p with
      | none => .panics
      | some par =>
          match createDirAll fs par.comps with
          | .error e => .err e
          | .ok fs1 =>
              match atomicWriteNew fs1 (resolveComps p.comps) (.toml (encodeWorkspace w)) with
              | .error e => .err e
              | .ok fs2 => .ok fs2

/-! ## Pointer store operations (`src/cache.rs`) -/

inductive Key where
  | current
  deriving Repr, DecidableEq

def Key.filename : Key → String
  | .current => "current"

def cacheFilePath (k : Key) : AbsPath := resolveComps (cacheDirPath.comps ++ [k.filename])

/-- `cache::read`: read the key's file and trim surrounding whitespace.
A structured record file standing at the key's path has no single text
form in the model and surfaces as the encoding failure; no verified
scenario reaches that branch. -/
def cacheRead (fs : Fs) (k : Key) : Except Err String :=
  match readToString fs (cacheFilePath k) with
  | .error e => .error e
  | .ok (.text s) => .ok (rustTrim s)
  | .ok (.toml _) => .error .encoding

/-- `cache::write`: create the cache directory, then atomically overwrite
the key's file with the trimmed value plus one trailing newline. -/
def cacheWrite (fs : Fs) (k : Key) (v : String) : Except Err Fs :=
  match createDirAll fs cacheDirPath.comps with
  | .error e => .error e
  | .ok fs1 => atomicWriteOver fs1 (cacheFilePath k) (.text (rustTrim v ++ "\n"))

/-! ## Directory-tree snapshot and `workspace::list`

`list` walks the store root with `walkdir`, siblings sorted by file name.
The walk is modelled over a snapshot of the root's directory tree. -/

/-- A snapshot of a directory tree. A node is either a regular file, or a
directory given by its entry list: `dnil` ends the list, `dcons n c rest`
is an entry named `n` whose node is `c`, followed by the remaining sibling
entries `rest` (under `treeWf`, `rest` is again `dnil`/`dcons`). The type
is kept flat so that every traversal is plain structural recursion. -/
inductive FsTree where
  | file (data : FileData)
  | dnil
  | dcons (name : String) (child : FsTree) (rest : FsTree)

def isFile : FsTree → Bool
  | .file _ => true
  | _ => false

/-- The name checks `list`'s `filter_entry` applies to every entry. -/
def entryOk (n : String) : Bool :=
  !(n.toList.any rustIsAsciiControl) && !(n.toList.any isForbidden)

/-- Strict lexicographic order on character lists (code-point order, which
agrees with the UTF-8 byte order `sort_by_file_name` sorts by). -/
def charListLt : List Char → List Char → Bool
  | [], [] => false
  | [], _ :: _ => true
  | _ :: _, [] => false
  | c :: cs, d :: ds => if c < d then true else if c = d then charListLt cs ds else false

def strLt (a b : String) : Bool := charListLt a.toList b.toList

/-- Insert an entry into a name-sorted entry list. -/
def insEntry (n : String) (c : FsTree) : FsTree → FsTree
  | .dcons m u r => if strLt n m then .dcons n c (.dcons m u r) else .dcons m u (insEntry n c r)
  | e => .dcons n c e

/-- Sort every entry list of the tree by name: the effect of
`WalkDir::sort_by_file_name` on the traversal. -/
def sortTree : FsTree → FsTree
  | .file d => .file d
  | .dnil => .dnil
  | .dcons n c r => insEntry n (sortTree c) (sortTree r)

/-- Walk a node standing at position `pre`. A regular file contributes the
path it stands at; an entry list is walked in order, `filter_entry`
dropping an entry with an invalid name — for a directory this skips the
whole subtree — while the rest of the walk continues. -/
def walkNode (pre : List String) : FsTree → List (List String)
  | .file _ => [pre]
  | .dnil => []
  | .dcons n c r =>
      (if entryOk n then walkNode (pre ++ [n]) c else []) ++ walkNode pre r

/-- The store-relative component paths of the regular files the walk
yields, in traversal order. A root that is itself a regular file yields
the empty relative path, which the `.toml`-stripping step then drops. -/
def walkRoot (t : FsTree) : List (List String) :=
  walkNode [] (sortTree t)

def joinSlash : List String → String
  | [] => ""
  | [c] => c
  | c :: rest => c ++ "/" ++ joinSlash rest

/-- Rust `str::strip_suffix` on character lists. -/
def stripSuffixChars (l sfx : List Char) : Option (List Char) :=
  if sfx.length ≤ l.length ∧ l.drop (l.length - sfx.length) = sfx then
    some (l.take (l.length - sfx.length))
  else none

/-- Strip the `.toml` suffix of the joined relative path, dropping paths
without it. -/
def stripToml (p : List String) : Option String :=
  (stripSuffixChars (joinSlash p).toList ".toml".toList).map String.mk

/-- `workspace::list` over a snapshot of the store root's tree. The
per-entry diagnostics of the source (invalid names, IO errors, non-UTF-8
paths) skip entries without aborting; IO errors and non-UTF-8 names have
no model counterpart, the name checks are `entryOk`. -/
def list (t : FsTree) : List String := (walkRoot t).filterMap stripToml

/-- Is there a regular file at component path `p` relative to this node? -/
def isFileAt : FsTree → List String → Bool
  | .file _, [] => true
  | .file _, _ :: _ => false
  | .dnil, _ => false
  | .dcons _ _ _, [] => false
  | .dcons n c r, x :: rest =>
      (if n = x then isFileAt c rest else false) || isFileAt r (x :: rest)

def entNames : FsTree → List String
  | .dcons n _ r => n :: entNames r
  | _ => []

/-- Structural facts any real directory snapshot satisfies: entry names
are nonempty, slash-free, not `.` or `..`. -/
def goodEntryName (n : String) : Bool :=
  n != "" && !(n.toList.contains '/') && n != "." && n != ".."

def isEntryList : FsTree → Bool
  | .file _ => false
  | _ => true

/-- Well-formedness of a directory snapshot: entry names are good and
distinct among siblings, and the rest of an entry list is an entry list. -/
def treeWf : FsTree → Bool
  | .file _ => true
  | .dnil => true
  | .dcons n c r =>
      goodEntryName n && treeWf c && treeWf r && isEntryList r
        && !((entNames r).contains n)

/-! ## Concrete fixtures used by witnesses and counterexamples -/

/-- A filesystem where the base directories exist and both stores are
empty. -/
def fs0 : Fs :=
  { files := []
    dirs := [[], ["home"], ["home", "user"], ["home", "user", ".config"],
      ["home", "user", ".config", "workspacectl"]] }

def mkWs (n : String) : Workspace :=
  { name := n, dir := "/srv/api", ssh := none, editor := none, shell := none }

/-- `fs0` with a record file planted outside the store root, at the path
that the name `../x` resolves to. -/
def fsTrav : Fs :=
  { fs0 with files := [(["home", "user", ".config", "x.toml"],
      .toml [("dir", .str "/outside")])] }

/-- `fs0` with a record file whose name contains the forbidden `<`. -/
def fsAngle : Fs :=
  { fs0 with files := [(["home", "user", ".config", "workspacectl", "a<b.toml"],
      .toml [("dir", .str "/srv")])] }

/-- `fs0` with a record file whose body also carries a `name` key. -/
def fsNameKey : Fs :=
  { fs0 with files := [(["home", "user", ".config", "workspacectl", "x.toml"],
      .toml [("name", .str "evil"), ("dir", .str "/srv")])] }

def cacheDirs : List AbsPath :=
  ["home", "user", ".cache", "workspacectl"] :: ["home", "user", ".cache"] :: fs0.dirs

/-- Result of writing `"proj-a\n"` to the `current` pointer on `fs0`. -/
def fsProjA : Fs :=
  { files := [(["home", "user", ".cache", "workspacectl", "current"], .text "proj-a\n")]
    dirs := cacheDirs }

/-- Result of writing `"a\nb"` to the `current` pointer on `fs0`. -/
def fsRawNl : Fs :=
  { files := [(["home", "user", ".cache", "workspacectl", "current"], .text "a\nb\n")]
    dirs := cacheDirs }

/-- Content shape the spec claims for the pointer file: a single line,
no embedded newline, exactly one trailing newline. -/
def isSingleLine (c : String) : Bool :=
  c.toList.count '\n' == 1 && c.toList.getLast? == some '\n'

/-- The filesystem after creating the record `team/api` on `fs0`. -/
def fsTeam : Fs :=
  { files := [(["home", "user", ".config", "workspacectl", "team", "api.toml"],
      .toml [("dir", .str "/srv/api")])]
    dirs := ["home", "user", ".config", "workspacectl", "team"] :: fs0.dirs }

/-- The filesystem after creating a record with the empty name on `fs0`:
the file lands at `<config>/workspacectl.toml`, outside the store root. -/
def fsEmptyName : Fs :=
  { files := [(["home", "user", ".config", "workspacectl.toml"],
      .toml [("dir", .str "/srv/api")])]
    dirs := fs0.dirs }

/-- A store snapshot holding two good records (`team/api`, `zeta`), a file
without the extension, a file with a forbidden character in its name, and
a directory with a forbidden name holding a record. -/
def tree0 : FsTree :=
  .dcons "zeta.toml" (.file (.text ""))
    (.dcons "bad<dir" (.dcons "inner.toml" (.file (.text "")) .dnil)
      (.dcons "bad\nname.toml" (.file (.text ""))
        (.dcons "readme.md" (.file (.text ""))
          (.dcons "team" (.dcons "api.toml" (.file (.text "")) .dnil) .dnil))))

/-- Strict lexicographic order on component paths: the order in which a
sorted depth-first walk emits file paths. -/
def pathLt : List String → List String → Bool
  | [], [] => false
  | [], _ :: _ => true
  | _ :: _, [] => false
  | a :: as, b :: bs => if strLt a b then true else if a = b then pathLt as bs else false

/-- `n` is smaller than the first entry name of `r` (trivially true when
`r` has no entries). -/
def headLt (n : String) : FsTree → Bool
  | .dcons m _ _ => strLt n m
  | _ => true

/-- Sibling names strictly increase at every directory level. -/
def entriesSortedB : FsTree → Bool
  | .dcons n c r => headLt n r && entriesSortedB c && entriesSortedB r
  | _ => true

/-! ## Helper lemmas -/

theorem string_nil_append (s : String) : "" ++ s = s := by
  cases s
  rfl

theorem withExtension_abs (p : RawPath) (e : String) : (withExtension p e).abs = p.abs := by
  unfold withExtension
  split <;> rfl

theorem withExtension_comps_ne_nil (p : RawPath) (e : String) (h : p.comps ≠ []) :
    (withExtension p e).comps ≠ [] := by
  unfold withExtension
  split
  · exact h
  · simp

theorem except_bind_ok {α β : Type} {ma : Except Err α} {f : α → Except Err β} {b : β} :
    (ma >>= f) = .ok b ↔ ∃ a, ma = .ok a ∧ f a = .ok b := by
  cases ma <;> simp [Bind.bind, Except.bind]

theorem except_bind_ne {α β : Type} {ma : Except Err α} {f : α → Except Err β} (e : Err)
    (h1 : ma ≠ .error e) (h2 : ∀ a, f a ≠ .error e) : (ma >>= f) ≠ .error e := by
  cases ma with
  | error x => simpa [Bind.bind, Except.bind] using h1
  | ok a => simpa [Bind.bind, Except.bind] using h2 a

/-- What `file_path name = .ok p` tells about `name` and `p`. -/
theorem file_path_ok {name : String} {p : RawPath} (h : file_path name = .ok p) :
    name.toList.any rustIsAsciiControl = false
      ∧ name.toList.any isForbidden = false
      ∧ (parsePath name).abs = false
      ∧ p = withExtension (rawJoin dir_path (parsePath name)) "toml" := by
  unfold file_path at h
  split at h
  next => cases h
  next h1 =>
    split at h
    next => cases h
    next h2 =>
      split at h
      next => cases h
      next h3 =>
        injection h with h4
        exact ⟨by simpa using h1, by simpa using h2, by simpa using h3, h4.symm⟩

theorem readToString_err (fs : Fs) (p : AbsPath) {e : Err}
    (h : readToString fs p = .error e) : e = .io ∨ e = .notFound := by
  unfold readToString at h
  split at h
  · cases h
  · split at h
    · cases h
      simp
    · cases h
      simp

theorem reqStr_ne (doc : TomlDoc) (k : String) : reqStr doc k ≠ .error .validation := by
  unfold reqStr
  split <;> simp

theorem optStr_ne (doc : TomlDoc) (k : String) : optStr doc k ≠ .error .validation := by
  unfold optStr
  split <;> simp

theorem optU16_ne (doc : TomlDoc) (k : String) : optU16 doc k ≠ .error .validation := by
  unfold optU16
  split
  · simp
  · split <;> simp
  · simp
  · simp

theorem optTable_ne (doc : TomlDoc) (k : String) : optTable doc k ≠ .error .validation := by
  unfold optTable
  split <;> simp

theorem pure_ne_error {α : Type} (a : α) (e : Err) :
    (pure a : Except Err α) ≠ .error e := by
  simp [pure, Except.pure]

theorem decodeSsh_ne (doc : TomlDoc) : decodeSsh doc ≠ .error .validation := by
  unfold decodeSsh
  refine except_bind_ne _ (optStr_ne _ _) fun a => ?_
  refine except_bind_ne _ (optStr_ne _ _) fun b => ?_
  refine except_bind_ne _ (reqStr_ne _ _) fun c => ?_
  refine except_bind_ne _ (optU16_ne _ _) fun d => ?_
  refine except_bind_ne _ (optStr_ne _ _) fun e => ?_
  exact pure_ne_error _ _

theorem decodeEditor_ne (doc : TomlDoc) : decodeEditor doc ≠ .error .validation := by
  unfold decodeEditor
  refine except_bind_ne _ (reqStr_ne _ _) fun a => ?_
  exact pure_ne_error _ _

theorem decodeShell_ne (doc : TomlDoc) : decodeShell doc ≠ .error .validation := by
  unfold decodeShell
  refine except_bind_ne _ (reqStr_ne _ _) fun a => ?_
  exact pure_ne_error _ _

theorem decodeOptPart_ne {α : Type} (f : TomlDoc → Except Err α)
    (hf : ∀ t, f t ≠ .error .validation) (o : Option TomlDoc) :
    decodeOptPart f o ≠ .error .validation := by
  cases o with
  | none => simp [decodeOptPart]
  | some t =>
      have ht := hf t
      unfold decodeOptPart
      cases hft : f t with
      | error x => simpa [Except.map, hft] using ht
      | ok a => simp [Except.map, hft]

theorem decodeWorkspace_ne (doc : TomlDoc) : decodeWorkspace doc ≠ .error .validation := by
  unfold decodeWorkspace
  refine except_bind_ne _ (reqStr_ne _ _) fun a => ?_
  refine except_bind_ne _ (optTable_ne _ _) fun t1 => ?_
  refine except_bind_ne _ (decodeOptPart_ne _ decodeSsh_ne t1) fun s => ?_
  refine except_bind_ne _ (optTable_ne _ _) fun t2 => ?_
  refine except_bind_ne _ (decodeOptPart_ne _ decodeEditor_ne t2) fun ed => ?_
  refine except_bind_ne _ (optTable_ne _ _) fun t3 => ?_
  refine except_bind_ne _ (decodeOptPart_ne _ decodeShell_ne t3) fun sh => ?_
  exact pure_ne_error _ _

/-- `read` can fail for many reasons, but never with a validation error,
for any name the relative-path check lets through. -/
theorem wsRead_ne_validation (fs : Fs) (name : String)
    (h : (parsePath name).abs = false) : wsRead fs name ≠ .error .validation := by
  have h2 : (withExtension (parsePath name) "toml").abs = false := by
    rw [withExtension_abs]
    exact h
  unfold wsRead
  simp only [h2, Bool.false_eq_true, if_false]
  split
  next e heq =>
    rcases readToString_err _ _ heq with h3 | h3 <;> simp [h3]
  next => simp
  next doc heq =>
    split
    next e heq2 =>
      intro hc
      injection hc with hc
      subst hc
      exact decodeWorkspace_ne doc heq2
    next => simp

/-! ## Trimming lemmas -/

theorem dropWhile_head_false {α : Type} (p : α → Bool) :
    ∀ (l : List α) {a : α} {t : List α}, l.dropWhile p = a :: t → p a = false := by
  intro l
  induction l with
  | nil => intro a t h; simp [List.dropWhile] at h
  | cons b l ih =>
      intro a t h
      rw [List.dropWhile_cons] at h
      by_cases hb : p b = true
      · rw [if_pos hb] at h
        exact ih h
      · rw [if_neg hb] at h
        cases h
        simpa using hb

theorem dropWhile_dropWhile {α : Type} (p : α → Bool) (l : List α) :
    (l.dropWhile p).dropWhile p = l.dropWhile p := by
  cases hd : l.dropWhile p with
  | nil => rfl
  | cons a t =>
      rw [List.dropWhile_cons, if_neg (by simp [dropWhile_head_false p l hd])]

theorem trimChars_append_newline (l : List Char) :
    trimChars (trimChars l ++ ['\n']) = trimChars l := by
  cases hu : trimChars l with
  | nil => decide
  | cons a t =>
      have hr : (l.dropWhile rustIsWhitespace).reverse.dropWhile rustIsWhitespace
          = (a :: t).reverse := by
        have h1 := congrArg List.reverse hu
        rw [trimChars, List.reverse_reverse] at h1
        exact h1
      have hm : l.dropWhile rustIsWhitespace
          = a :: (t ++ ((l.dropWhile rustIsWhitespace).reverse.takeWhile rustIsWhitespace).reverse) := by
        have hsp := List.takeWhile_append_dropWhile
          (p := rustIsWhitespace) (l := (l.dropWhile rustIsWhitespace).reverse)
        rw [hr] at hsp
        have h2 := congrArg List.reverse hsp
        simpa [List.reverse_append] using h2.symm
      have hwa : rustIsWhitespace a = false := dropWhile_head_false _ l hm
      have hF2 : (t.reverse ++ [a]).dropWhile rustIsWhitespace = t.reverse ++ [a] := by
        have h3 := dropWhile_dropWhile rustIsWhitespace (l.dropWhile rustIsWhitespace).reverse
        rw [hr] at h3
        simpa using h3
      show trimChars (a :: (t ++ ['\n'])) = a :: t
      rw [trimChars, List.dropWhile_cons, if_neg (by simp [hwa])]
      have hrev : (a :: (t ++ ['\n'])).reverse = '\n' :: (t.reverse ++ [a]) := by
        simp
      rw [hrev, List.dropWhile_cons, if_pos (by decide), hF2]
      simp

theorem string_data_append (a b : String) : (a ++ b).data = a.data ++ b.data := by
  cases a
  cases b
  rfl

theorem rustTrim_append_newline (s : String) :
    rustTrim (rustTrim s ++ "\n") = rustTrim s := by
  show String.mk (trimChars (rustTrim s ++ "\n").data) = rustTrim s
  have h : (rustTrim s ++ "\n").data = trimChars s.data ++ ['\n'] := by
    rw [string_data_append]
    rfl
  rw [h, trimChars_append_newline]
  rfl

/-! ## Path lemmas -/

theorem getLast?_decomp {α : Type} : ∀ (l : List α) (a : α),
    l.getLast? = some a → l = l.dropLast ++ [a]
  | [], a, h => by simp at h
  | [x], a, h => by
      simp [List.getLast?] at h
      subst h
      rfl
  | x :: y :: t, a, h => by
      rw [List.getLast?_cons_cons] at h
      have ih := getLast?_decomp (y :: t) a h
      conv_lhs => rw [ih]
      rfl

theorem getLast?_append_right {α : Type} (dp Y : List α) {y : α}
    (h : Y.getLast? = some y) : (dp ++ Y).getLast? = some y := by
  conv_lhs => rw [getLast?_decomp Y y h]
  rw [← List.append_assoc, List.getLast?_concat]

theorem dropWhile_append_left {α : Type} (p : α → Bool) :
    ∀ (l₁ : List α) (l₂ : List α), l₁.dropWhile p ≠ [] →
      (l₁ ++ l₂).dropWhile p = l₁.dropWhile p ++ l₂
  | [], l₂, h => absurd rfl h
  | a :: t, l₂, h => by
      by_cases ha : p a = true
      · rw [List.cons_append, List.dropWhile_cons, List.dropWhile_cons, if_pos ha, if_pos ha]
        rw [List.dropWhile_cons, if_pos ha] at h
        exact dropWhile_append_left p t l₂ h
      · rw [List.cons_append, List.dropWhile_cons, List.dropWhile_cons, if_neg ha, if_neg ha]
        rfl

theorem dropTrailingDots_ne_nil (l : List String)
    (h : l.filter (· ≠ ".") ≠ []) : dropTrailingDots l ≠ [] := by
  intro hc
  unfold dropTrailingDots at hc
  rw [List.reverse_eq_nil_iff, List.dropWhile_eq_nil_iff] at hc
  refine h (List.filter_eq_nil_iff.mpr fun a ha => ?_)
  have := hc a (by simpa using ha)
  simp at this ⊢
  simpa using this

theorem dropTrailingDots_append (dp l : List String)
    (h : dropTrailingDots l ≠ []) :
    dropTrailingDots (dp ++ l) = dp ++ dropTrailingDots l := by
  unfold dropTrailingDots at *
  rw [List.reverse_append, dropWhile_append_left _ _ _ (by simpa using h)]
  simp

theorem dropTrailingDots_concat (l : List String) (a : String) (h : a ≠ ".") :
    dropTrailingDots (l ++ [a]) = l ++ [a] := by
  unfold dropTrailingDots
  rw [List.reverse_append]
  rw [show [a].reverse ++ l.reverse = a :: l.reverse by simp]
  rw [List.dropWhile_cons, if_neg (by simpa using h)]
  simp

theorem dropLast_append_right {α : Type} (dp Y : List α) (h : Y ≠ []) :
    (dp ++ Y).dropLast = dp ++ Y.dropLast := by
  cases hy : Y.getLast? with
  | none =>
      rw [List.getLast?_eq_none_iff] at hy
      exact absurd hy h
  | some y =>
      conv_lhs => rw [getLast?_decomp Y y hy]
      rw [← List.append_assoc, List.dropLast_concat]

theorem dir_path_filter : dir_path.comps.filter (· ≠ ".") = dir_path.comps := by
  decide

/-- `fileName` of the store path joined with a relative name path equals
the name path's `fileName`, when the latter exists. -/
theorem fileName_join (q : RawPath) (fn : String) (hq : fileName q = some fn) :
    fileName ⟨true, dir_path.comps ++ q.comps⟩ = some fn := by
  unfold fileName at *
  rw [List.filter_append, dir_path_filter]
  cases hl : (q.comps.filter (· ≠ ".")).getLast? with
  | none => rw [hl] at hq; cases hq
  | some x =>
      rw [hl] at hq
      rw [getLast?_append_right _ _ hl]
      exact hq

theorem fileName_filter_ne_nil (q : RawPath) (fn : String) (hq : fileName q = some fn) :
    q.comps.filter (· ≠ ".") ≠ [] := by
  unfold fileName at hq
  intro hc
  rw [hc] at hq
  simp [List.getLast?] at hq

/-- The join-then-extend path `create` builds and the extend-then-join
path `read` builds coincide whenever the name has a file-name component. -/
theorem withExtension_join (q : RawPath) (fn : String) (e : String)
    (hq : fileName q = some fn) (habs : q.abs = false) :
    withExtension (rawJoin dir_path q) e
      = ⟨true, dir_path.comps ++ (withExtension q e).comps⟩ := by
  have hne : dropTrailingDots q.comps ≠ [] :=
    dropTrailingDots_ne_nil _ (fileName_filter_ne_nil q fn hq)
  rw [show rawJoin dir_path q = ⟨true, dir_path.comps ++ q.comps⟩ by
    simp [rawJoin, habs, dir_path]]
  unfold withExtension
  rw [hq, fileName_join q fn hq]
  simp only [RawPath.mk.injEq, true_and]
  rw [dropTrailingDots_append _ _ hne, dropLast_append_right _ _ hne]
  simp

/-! ## Claim theorems -/

/-- C1: the path-traversal guard of the claim does not exist in the code.
The name `../x` — which resolves outside the store root — passes every
`file_path` check (so `create` writes through it), its resolved location
is `<config>/x.toml`, not under the store root, and `read` happily reads
a record planted there instead of failing with a validation error. -/
theorem c1_traversal_accepted :
    file_path "../x"
        = .ok ⟨true, ["home", "user", ".config", "workspacectl", "..", "x.toml"]⟩
      ∧ resolveComps ["home", "user", ".config", "workspacectl", "..", "x.toml"]
          = ["home", "user", ".config", "x.toml"]
      ∧ (resolveComps ["home", "user", ".config", "workspacectl", "..", "x.toml"]).take 4
          ≠ dir_path.comps
      ∧ wsRead fsTrav "../x" = .ok ⟨"../x", "/outside", none, none, none⟩ :=
  ⟨rfl, rfl, by decide, rfl⟩

/-- C2 counterexample: for the name `a<b`, which contains the forbidden
character `<`, `Read` does not fail with a validation error before
filesystem access — it reads the planted file and succeeds. -/
theorem c2_read_accepts_forbidden :
    isForbidden '<' = true
      ∧ "a<b".toList.any isForbidden = true
      ∧ wsRead fsAngle "a<b" = .ok ⟨"a<b", "/srv", none, none, none⟩ :=
  ⟨rfl, rfl, rfl⟩

/-- C2 amended: for every name containing a forbidden or ASCII control
character, `Create` fails with a validation error identically for every
filesystem state (hence before any filesystem access); `Read` performs no
character validation at all — it never returns a validation failure for
any name passing the relative-path check. -/
theorem c2_create_validates (fs fs' : Fs) (w : Workspace) (name : String)
    (h : w.name.toList.any rustIsAsciiControl = true ∨ w.name.toList.any isForbidden = true)
    (hrel : (parsePath name).abs = false) :
    wsCreate fs w = .err .validation ∧ wsRead fs' name ≠ .error .validation := by
  refine ⟨?_, wsRead_ne_validation fs' name hrel⟩
  unfold wsCreate file_path
  rcases h with h | h
  · rw [if_pos h]
  · by_cases h1 : w.name.toList.any rustIsAsciiControl = true
    · rw [if_pos h1]
    · rw [if_neg h1, if_pos h]

/-- C2 witness: the forbidden name `a<b` on the empty store. -/
theorem c2_create_validates_witness :
    wsCreate fs0 (mkWs "a<b") = .err .validation
      ∧ wsRead fs0 "a<b" ≠ .error .validation :=
  c2_create_validates fs0 fs0 (mkWs "a<b") "a<b" (Or.inr (by decide)) (by decide)

/-- C5: pointer `Write(key, v)` followed by `Read(key)` returns exactly
the trimmed form of `v`, whatever surrounding whitespace `v` carries. -/
theorem c5_pointer_roundtrip (fs fs' : Fs) (k : Key) (v : String)
    (h : cacheWrite fs k v = .ok fs') : cacheRead fs' k = .ok (rustTrim v) := by
  unfold cacheWrite at h
  split at h
  next => cases h
  next fs1 hdir =>
    unfold atomicWriteOver at h
    split at h
    next => cases h
    next hnd =>
      injection h with h
      subst h
      unfold cacheRead readToString Fs.fileAt lookupFile
      simp [rustTrim_append_newline]

/-- C5 witness: `Write(Current, "proj-a\n")` then `Read(Current)` returns
`"proj-a"`. -/
theorem c5_pointer_roundtrip_witness :
    cacheRead fsProjA .current = .ok (rustTrim "proj-a\n") ∧ rustTrim "proj-a\n" = "proj-a" :=
  ⟨c5_pointer_roundtrip fs0 fsProjA .current "proj-a\n" rfl, by decide⟩

/-- C6 counterexample: for the name `v1.2`, whose final segment already
contains a dot, the storage extension is not appended to the full name:
`with_extension` replaces `2`, resolving to `<store_root>/v1.toml` rather
than `<store_root>/v1.2.toml`. -/
theorem c6_extension_replaced :
    file_path "v1.2" = .ok ⟨true, ["home", "user", ".config", "workspacectl", "v1.toml"]⟩
      ∧ (⟨true, ["home", "user", ".config", "workspacectl", "v1.toml"]⟩ : RawPath)
          ≠ ⟨true, ["home", "user", ".config", "workspacectl", "v1.2.toml"]⟩ :=
  ⟨rfl, by decide⟩

/-- C6 amended: for a valid name whose final segment is a real file name
(not empty, `.` or `..`, with no trailing `.` segment) containing no dot
beyond position zero, the resolved path is the store root joined with the
name and `.toml` appended to the final segment. When the final segment
already has an extension, `with_extension` replaces it instead (see the
counterexample). -/
theorem c6_resolved_path (name fn : String)
    (h1 : name.toList.any rustIsAsciiControl = false)
    (h2 : name.toList.any isForbidden = false)
    (h3 : (parsePath name).abs = false)
    (h4 : (parsePath name).comps.getLast? = some fn)
    (h5 : fn ≠ ".") (h5' : fn ≠ "..")
    (h6 : lastDotIdx fn.toList = none ∨ lastDotIdx fn.toList = some 0) :
    file_path name
      = .ok ⟨true, dir_path.comps ++ ((parsePath name).comps.dropLast ++ [fn ++ ".toml"])⟩ := by
  have hg : ((parsePath name).comps.filter (· ≠ ".")).getLast? = some fn := by
    conv_lhs => rw [getLast?_decomp _ _ h4]
    rw [List.filter_append]
    rw [show List.filter (· ≠ ".") [fn] = [fn] by simp [h5]]
    exact List.getLast?_concat _
  have hfn : fileName (parsePath name) = some fn := by
    unfold fileName
    rw [hg]
    show (if fn = ".." then none else some fn) = some fn
    rw [if_neg h5']
  have hse : setExt fn "toml" = fn ++ ".toml" := by
    unfold setExt fileStem
    rcases h6 with h6 | h6 <;> rw [h6] <;> rw [String.append_assoc] <;> rfl
  have hdd : dropTrailingDots (parsePath name).comps = (parsePath name).comps := by
    conv_lhs => rw [getLast?_decomp _ _ h4]
    rw [dropTrailingDots_concat _ _ h5]
    exact (getLast?_decomp _ _ h4).symm
  unfold file_path
  rw [if_neg (by rw [h1]; exact Bool.false_ne_true),
    if_neg (by rw [h2]; exact Bool.false_ne_true),
    if_neg (by rw [h3]; exact Bool.false_ne_true)]
  rw [withExtension_join (parsePath name) fn "toml" hfn h3]
  simp only [withExtension, hfn, hdd, hse]

/-- C6 witness: the name `team/api` resolves to
`<store_root>/team/api.toml`. -/
theorem c6_resolved_path_witness :
    file_path "team/api"
      = .ok ⟨true, dir_path.comps
          ++ ((parsePath "team/api").comps.dropLast ++ ["api" ++ ".toml"])⟩ :=
  c6_resolved_path "team/api" "api" rfl rfl rfl rfl (by decide) (by decide) (Or.inl rfl)

/-- C8 amended: after every successful pointer write, the file holds the
trimmed value followed by exactly one trailing newline; whenever the
trimmed value has no internal newline — the caller contract — that
content is a single line with no embedded newline and exactly one
trailing newline. -/
theorem c8_written_shape (fs fs' : Fs) (k : Key) (v : String)
    (h : cacheWrite fs k v = .ok fs') :
    fs'.fileAt (cacheFilePath k) = some (.text (rustTrim v ++ "\n"))
      ∧ ('\n' ∉ (rustTrim v).toList → isSingleLine (rustTrim v ++ "\n") = true) := by
  have hdata : (rustTrim v ++ "\n").toList = (rustTrim v).toList ++ ['\n'] := by
    rw [show (rustTrim v ++ "\n").toList = (rustTrim v ++ "\n").data from rfl,
      string_data_append]
    rfl
  constructor
  · unfold cacheWrite at h
    split at h
    next => cases h
    next fs1 hdir =>
      unfold atomicWriteOver at h
      split at h
      next => cases h
      next =>
        injection h with h
        subst h
        simp [Fs.fileAt, lookupFile]
  · intro hnl
    unfold isSingleLine
    rw [hdata, List.count_append, List.count_eq_zero.mpr hnl, List.getLast?_concat]
    simp

/-- C8 witness: writing `" x "` stores exactly `"x\n"`, a single line. -/
theorem c8_written_shape_witness :
    (Fs.mk [(["home", "user", ".cache", "workspacectl", "current"], .text "x\n")]
        cacheDirs).fileAt (cacheFilePath .current) = some (.text (rustTrim " x " ++ "\n"))
      ∧ ('\n' ∉ (rustTrim " x ").toList → isSingleLine (rustTrim " x " ++ "\n") = true) :=
  c8_written_shape fs0 _ .current " x " rfl

/-- C8 counterexample: writing the value `"a\nb"` stores the file content
`"a\nb\n"` — the trimmed value plus one newline — which is not a single
line without an embedded newline, so the claimed shape is not an
invariant over every input value. -/
theorem c8_not_single_line :
    cacheWrite fs0 .current "a\nb" = .ok fsRawNl
      ∧ fsRawNl.fileAt (cacheFilePath .current) = some (.text "a\nb\n")
      ∧ isSingleLine "a\nb\n" = false :=
  ⟨rfl, rfl, rfl⟩

theorem decodeWorkspace_skips_name (v : TomlVal) (rest : TomlDoc) :
    decodeWorkspace (("name", v) :: rest) = decodeWorkspace rest := by
  have hl : ∀ k : String, k ≠ "name" → lookupKey (("name", v) :: rest) k = lookupKey rest k := by
    intro k hk
    show (if "name" = k then some v else lookupKey rest k) = lookupKey rest k
    rw [if_neg (fun hc => hk hc.symm)]
  have h1 : reqStr (("name", v) :: rest) "dir" = reqStr rest "dir" := by
    unfold reqStr
    rw [hl "dir" (by decide)]
  have h2 : optTable (("name", v) :: rest) "ssh" = optTable rest "ssh" := by
    unfold optTable
    rw [hl "ssh" (by decide)]
  have h3 : optTable (("name", v) :: rest) "editor" = optTable rest "editor" := by
    unfold optTable
    rw [hl "editor" (by decide)]
  have h4 : optTable (("name", v) :: rest) "shell" = optTable rest "shell" := by
    unfold optTable
    rw [hl "shell" (by decide)]
  unfold decodeWorkspace
  simp only [h1, h2, h3, h4]

theorem decodeWorkspace_name (doc : TomlDoc) (w : Workspace)
    (h : decodeWorkspace doc = .ok w) : w.name = "" := by
  unfold decodeWorkspace at h
  obtain ⟨d, -, h⟩ := except_bind_ok.mp h
  obtain ⟨t1, -, h⟩ := except_bind_ok.mp h
  obtain ⟨s, -, h⟩ := except_bind_ok.mp h
  obtain ⟨t2, -, h⟩ := except_bind_ok.mp h
  obtain ⟨ed, -, h⟩ := except_bind_ok.mp h
  obtain ⟨t3, -, h⟩ := except_bind_ok.mp h
  obtain ⟨sh, -, h⟩ := except_bind_ok.mp h
  have h' : Except.ok (ε := Err)
      (Workspace.mk "" d s ed sh) = .ok w := h
  injection h' with h'
  rw [← h']

/-- C10: a `name` key inside a stored record body is silently ignored (the
field carries `serde(skip)` and unknown keys do not fail the parse), the
deserialized-but-unassigned record always has the empty name, and `Read`
returns the name argument, never the value found in the file. -/
theorem c10_name_key_ignored (v : TomlVal) (rest : TomlDoc) (fs : Fs) (n : String)
    (w' : Workspace)
    (hrel : (parsePath n).abs = false)
    (hfile : fs.fileAt
        (resolveComps (rawJoin dir_path (withExtension (parsePath n) "toml")).comps)
        = some (.toml (("name", v) :: rest)))
    (hdec : decodeWorkspace rest = .ok w') :
    decodeWorkspace (("name", v) :: rest) = decodeWorkspace rest
      ∧ w'.name = ""
      ∧ wsRead fs n = .ok { w' with name := n } := by
  have hskip := decodeWorkspace_skips_name v rest
  have hname := decodeWorkspace_name rest w' hdec
  refine ⟨hskip, hname, ?_⟩
  have habs : (withExtension (parsePath n) "toml").abs = false := by
    rw [withExtension_abs]
    exact hrel
  simp only [wsRead, habs, Bool.false_eq_true, if_false, readToString, Fs.fileAt] at *
  simp only [hfile, hskip, hdec, hname, string_nil_append]

/-- C10 witness: a file whose body carries `name = "evil"` read under the
name `x`. -/
theorem c10_name_key_ignored_witness :
    decodeWorkspace (("name", .str "evil") :: [("dir", .str "/srv")])
        = decodeWorkspace [("dir", .str "/srv")]
      ∧ (Workspace.mk "" "/srv" none none none).name = ""
      ∧ wsRead fsNameKey "x"
          = .ok { Workspace.mk "" "/srv" none none none with name := "x" } :=
  c10_name_key_ignored (.str "evil") [("dir", .str "/srv")] fsNameKey "x"
    (Workspace.mk "" "/srv" none none none) rfl rfl rfl

theorem createDirAllGo_files : ∀ (l : List String) (fs : Fs) (pos : AbsPath) {fs1 : Fs},
    createDirAllGo fs pos l = .ok fs1 → fs1.files = fs.files
  | [], fs, pos, fs1, h => by
      injection h with h
      rw [← h]
  | c :: rest, fs, pos, fs1, h => by
      unfold createDirAllGo at h
      split at h
      next => cases h
      next hfile =>
        by_cases hd : fs.isDir (stepComp pos c) = true
        · rw [if_pos hd] at h
          exact createDirAllGo_files rest fs _ h
        · rw [if_neg hd] at h
          have h2 := createDirAllGo_files rest _ _ h
          simpa using h2

theorem createDirAllGo_dirs : ∀ (l : List String) (fs : Fs) (pos : AbsPath) {fs1 : Fs},
    createDirAllGo fs pos l = .ok fs1 → ∀ q, fs.isDir q = true → fs1.isDir q = true
  | [], fs, pos, fs1, h => by
      injection h with h
      rw [← h]
      exact fun q hq => hq
  | c :: rest, fs, pos, fs1, h => by
      unfold createDirAllGo at h
      split at h
      next => cases h
      next hfile =>
        by_cases hd : fs.isDir (stepComp pos c) = true
        · rw [if_pos hd] at h
          exact createDirAllGo_dirs rest fs _ h
        · rw [if_neg hd] at h
          intro q hq
          refine createDirAllGo_dirs rest _ _ h q ?_
          simp only [Fs.isDir, List.contains_cons]
          simp only [Fs.isDir] at hq
          rw [hq]
          simp

/-- Re-running a successful `create_dir_all` after a fresh file appeared
at a location that is not one of its directories is a no-op success. -/
theorem createDirAllGo_rerun : ∀ (l : List String) (fs : Fs) (pos : AbsPath) {fs1 : Fs}
    (T : AbsPath) (d : FileData),
    createDirAllGo fs pos l = .ok fs1 → fs1.isDir T = false →
    createDirAllGo ⟨(T, d) :: fs1.files, fs1.dirs⟩ pos l = .ok ⟨(T, d) :: fs1.files, fs1.dirs⟩
  | [], fs, pos, fs1, T, d, h, hT => rfl
  | c :: rest, fs, pos, fs1, T, d, h, hT => by
      unfold createDirAllGo at h ⊢
      split at h
      next => cases h
      next hfile =>
        have hdirs1 : fs1.isDir (stepComp pos c) = true := by
          by_cases hd : fs.isDir (stepComp pos c) = true
          · rw [if_pos hd] at h
            exact createDirAllGo_dirs rest fs _ h _ hd
          · rw [if_neg hd] at h
            refine createDirAllGo_dirs rest _ _ h _ ?_
            simp [Fs.isDir]
        have hfiles1 : fs1.files = fs.files := by
          by_cases hd : fs.isDir (stepComp pos c) = true
          · rw [if_pos hd] at h
            exact createDirAllGo_files rest fs _ h
          · rw [if_neg hd] at h
            have h2 := createDirAllGo_files rest _ _ h
            simpa using h2
        have hne : T ≠ stepComp pos c := by
          intro hc
          rw [← hc] at hdirs1
          rw [hdirs1] at hT
          cases hT
        have hnone : fs.fileAt (stepComp pos c) = none := by
          have := Option.not_isSome_iff_eq_none.mp (by simpa using hfile)
          exact this
        have hcond : (Fs.mk ((T, d) :: fs1.files) fs1.dirs).fileAt (stepComp pos c) = none := by
          simp only [Fs.fileAt, lookupFile, if_neg hne]
          rw [show lookupFile fs1.files (stepComp pos c)
              = lookupFile fs.files (stepComp pos c) by rw [hfiles1]]
          exact hnone
        rw [if_neg (by simp [hcond])]
        rw [if_pos (show (Fs.mk ((T, d) :: fs1.files) fs1.dirs).isDir (stepComp pos c)
            = true from hdirs1)]
        by_cases hd : fs.isDir (stepComp pos c) = true
        · rw [if_pos hd] at h
          exact createDirAllGo_rerun rest fs _ T d h hT
        · rw [if_neg hd] at h
          exact createDirAllGo_rerun rest _ _ T d h hT

/-- C4 amended: whenever a first `create` succeeds, a second `create` of
the same record fails with the already-exists error, and the file at the
resolved path still holds exactly the content the first call wrote. -/
theorem c4_create_twice (fs fs' : Fs) (w : Workspace)
    (h : wsCreate fs w = .ok fs') :
    wsCreate fs' w = .err .alreadyExists
      ∧ ∃ p, file_path w.name = .ok p
          ∧ fs'.fileAt (resolveComps p.comps) = some (.toml (encodeWorkspace w)) := by
  unfold wsCreate at h
  split at h
  next => cases h
  next p hp =>
    split at h
    next => cases h
    next par hpar =>
      split at h
      next => cases h
      next fs1 hcd =>
        split at h
        next => cases h
        next fs2 hwr =>
          injection h with h
          subst h
          unfold atomicWriteNew at hwr
          split at hwr
          next => cases hwr
          next hcond =>
            injection hwr with hwr
            subst hwr
            have hsplit : fs1.fileAt (resolveComps p.comps) = none
                ∧ fs1.isDir (resolveComps p.comps) = false := by
              simpa using hcond
            have hre : createDirAll
                (Fs.mk ((resolveComps p.comps, FileData.toml (encodeWorkspace w))
                  :: fs1.files) fs1.dirs) par.comps
                = .ok (Fs.mk ((resolveComps p.comps, FileData.toml (encodeWorkspace w))
                  :: fs1.files) fs1.dirs) :=
              createDirAllGo_rerun par.comps fs [] _ _
                (show createDirAllGo fs [] par.comps = .ok fs1 from hcd) hsplit.2
            constructor
            · unfold wsCreate
              simp only [hp, hpar, hre]
              unfold atomicWriteNew
              rw [if_pos (by simp [Fs.fileAt, lookupFile])]
            · refine ⟨p, hp, ?_⟩
              simp [Fs.fileAt, lookupFile]

/-- C4 witness: creating `team/api` twice on the empty store. -/
theorem c4_create_twice_witness :
    wsCreate fsTeam (mkWs "team/api") = .err .alreadyExists
      ∧ ∃ p, file_path (mkWs "team/api").name = .ok p
          ∧ fsTeam.fileAt (resolveComps p.comps)
              = some (.toml (encodeWorkspace (mkWs "team/api"))) :=
  c4_create_twice fs0 fsTeam (mkWs "team/api") rfl

/-- C4 counterexample: for the valid name `..` — no control or forbidden
characters, relative — already the FIRST `create` fails with the
already-exists error, because the resolved path is the pre-existing
config base directory; the claim's "succeeds the first time" fails. -/
theorem c4_first_create_fails :
    "..".toList.any rustIsAsciiControl = false
      ∧ "..".toList.any isForbidden = false
      ∧ (parsePath "..").abs = false
      ∧ wsCreate fs0 (mkWs "..") = .err .alreadyExists :=
  ⟨rfl, rfl, rfl, rfl⟩


theorem decodeSsh_encodeSsh (s : Ssh) : decodeSsh (encodeSsh s) = .ok s := by
  obtain ⟨c, u, hh, p, i⟩ := s
  cases c <;> cases u <;> cases i <;> cases p <;>
    simp [encodeSsh, decodeSsh, optField, optStr, reqStr, optU16, lookupKey,
      Fin.isLt, Fin.eta, Bind.bind, Except.bind, pure, Except.pure]

theorem decodeEditor_encodeEditor (e : Editor) : decodeEditor (encodeEditor e) = .ok e := by
  obtain ⟨c⟩ := e
  simp [encodeEditor, decodeEditor, reqStr, lookupKey, Bind.bind, Except.bind,
    pure, Except.pure]

theorem decodeShell_encodeShell (e : Shell) : decodeShell (encodeShell e) = .ok e := by
  obtain ⟨c⟩ := e
  simp [encodeShell, decodeShell, reqStr, lookupKey, Bind.bind, Except.bind,
    pure, Except.pure]

/-- The serde round-trip: decoding an encoded record body restores every
field except the skipped `name`, which comes back empty. -/
theorem decodeWorkspace_encode (w : Workspace) :
    decodeWorkspace (encodeWorkspace w) = .ok { w with name := "" } := by
  obtain ⟨n, d, ssh, ed, sh⟩ := w
  cases ssh <;> cases ed <;> cases sh <;>
    simp [encodeWorkspace, decodeWorkspace, optField, optTable, reqStr, lookupKey,
      decodeOptPart, decodeSsh_encodeSsh, decodeEditor_encodeEditor,
      decodeShell_encodeShell, Except.map,
      Bind.bind, Except.bind, pure, Except.pure]


/-- C3 amended: for every record whose valid name has a file-name
component (so names such as the empty string, `.` or `..` are excluded),
a successful `create` followed by `read` of the same name returns the
record unchanged: the name comes back from the argument and the body
round-trips through serialization. -/
theorem c3_create_read_roundtrip (fs fs' : Fs) (w : Workspace) (fn : String)
    (hfn : fileName (parsePath w.name) = some fn)
    (h : wsCreate fs w = .ok fs') :
    wsRead fs' w.name = .ok w := by
  unfold wsCreate at h
  split at h
  next => cases h
  next p hp =>
    split at h
    next => cases h
    next par hpar =>
      split at h
      next => cases h
      next fs1 hcd =>
        split at h
        next => cases h
        next fs2 hwr =>
          injection h with h
          subst h
          unfold atomicWriteNew at hwr
          split at hwr
          next => cases hwr
          next hcond =>
            injection hwr with hwr
            subst hwr
            obtain ⟨-, -, habs, hpe⟩ := file_path_ok hp
            have hcomm := withExtension_join (parsePath w.name) fn "toml" hfn habs
            have habs2 : (withExtension (parsePath w.name) "toml").abs = false := by
              rw [withExtension_abs]
              exact habs
            have htarget : (rawJoin dir_path (withExtension (parsePath w.name) "toml")).comps
                = p.comps := by
              rw [hpe, hcomm]
              simp [rawJoin, habs2]
            simp only [wsRead, habs2, Bool.false_eq_true, if_false, htarget]
            simp only [readToString, Fs.fileAt, lookupFile, if_pos]
            simp only [decodeWorkspace_encode w, string_nil_append]


/-- C3 witness: create `team/api` on the empty store, then read it back. -/
theorem c3_create_read_roundtrip_witness :
    wsRead fsTeam "team/api" = .ok (mkWs "team/api") :=
  c3_create_read_roundtrip fs0 fsTeam (mkWs "team/api") "api" rfl rfl

/-- C3 counterexample: the empty name is a valid name under the claim's
definition (no control or forbidden characters, relative), and `create`
succeeds, but it writes `<config>/workspacectl.toml` while `read` opens
the store directory itself and fails, so create-then-read does not return
the record. -/
theorem c3_empty_name_breaks :
    ("".toList.any rustIsAsciiControl = false
      ∧ "".toList.any isForbidden = false
      ∧ (parsePath "").abs = false)
      ∧ wsCreate fs0 (mkWs "") = .ok fsEmptyName
      ∧ wsRead fsEmptyName "" = .error .io :=
  ⟨⟨rfl, rfl, rfl⟩, rfl, rfl⟩

/-- C9: `create` never reaches either panicking branch: the resolved path
always has a parent directory and the record body always serializes, so
every outcome is a typed result. -/
theorem c9_create_no_panic (fs : Fs) (w : Workspace) : wsCreate fs w ≠ .panics := by
  unfold wsCreate
  split
  next => simp
  next p hp =>
    have h1 : p.comps ≠ [] := by
      obtain ⟨-, -, h3, h4⟩ := file_path_ok hp
      subst h4
      apply withExtension_comps_ne_nil
      simp [rawJoin, h3, dir_path, configDir]
    split
    next hnone =>
      unfold parent at hnone
      split at hnone
      next he => exact absurd he h1
      next => cases hnone
    next par hpar =>
      split
      next => simp
      next fs1 hcd =>
        split
        next => simp
        next => simp

/-! ## Lemmas for `list`: orders, insertion, sorting -/

theorem charListLt_irrefl : ∀ l : List Char, charListLt l l = false
  | [] => rfl
  | c :: cs => by simp [charListLt, charListLt_irrefl cs]

theorem charListLt_trans : ∀ (a b c : List Char),
    charListLt a b = true → charListLt b c = true → charListLt a c = true
  | a, [], c, hab, _ => by cases a <;> simp [charListLt] at hab
  | a, b, [], _, hbc => by cases b <;> simp [charListLt] at hbc
  | [], _ :: _, _ :: _, _, _ => rfl
  | x :: xs, y :: ys, z :: zs, hab, hbc => by
      simp only [charListLt] at hab hbc ⊢
      by_cases h1 : x < y
      · by_cases h2 : y < z
        · rw [if_pos (lt_trans h1 h2)]
        · rw [if_neg h2] at hbc
          by_cases h3 : y = z
          · subst h3
            rw [if_pos h1]
          · rw [if_neg h3] at hbc
            cases hbc
      · rw [if_neg h1] at hab
        by_cases h4 : x = y
        · subst h4
          rw [if_pos rfl] at hab
          by_cases h2 : x < z
          · rw [if_pos h2]
          · rw [if_neg h2] at hbc ⊢
            by_cases h3 : x = z
            · subst h3
              rw [if_pos rfl] at hbc ⊢
              exact charListLt_trans xs ys zs hab hbc
            · rw [if_neg h3] at hbc
              cases hbc
        · rw [if_neg h4] at hab
          cases hab

theorem charListLt_total : ∀ (a b : List Char),
    a = b ∨ charListLt a b = true ∨ charListLt b a = true
  | [], [] => Or.inl rfl
  | [], _ :: _ => Or.inr (Or.inl rfl)
  | _ :: _, [] => Or.inr (Or.inr rfl)
  | x :: xs, y :: ys => by
      rcases lt_trichotomy x y with h | h | h
      · right
        left
        simp [charListLt, h]
      · subst h
        rcases charListLt_total xs ys with h2 | h2 | h2
        · left
          rw [h2]
        · right
          left
          simp [charListLt, h2]
        · right
          right
          simp [charListLt, h2]
      · right
        right
        simp [charListLt, h]

theorem strLt_irrefl (a : String) : strLt a a = false := charListLt_irrefl _

theorem strLt_trans {a b c : String} (h1 : strLt a b = true) (h2 : strLt b c = true) :
    strLt a c = true := charListLt_trans _ _ _ h1 h2

theorem strLt_total (a b : String) : a = b ∨ strLt a b = true ∨ strLt b a = true := by
  rcases charListLt_total a.toList b.toList with h | h | h
  · left
    cases a
    cases b
    exact congrArg String.mk h
  · right
    left
    exact h
  · right
    right
    exact h

theorem isFileAt_insEntry (n : String) (c : FsTree) :
    ∀ (es : FsTree) (q : List String),
      isFileAt (insEntry n c es) q = isFileAt (.dcons n c es) q
  | .dcons m u r, q => by
      unfold insEntry
      by_cases h : strLt n m = true
      · rw [if_pos h]
      · rw [if_neg h]
        cases q with
        | nil => rfl
        | cons x rest =>
            simp only [isFileAt, isFileAt_insEntry n c r (x :: rest)]
            cases hx : isFileAt r (x :: rest) <;>
              cases hnc : (if n = x then isFileAt c rest else false) <;>
              cases hmc : (if m = x then isFileAt u rest else false) <;> simp
  | .dnil, _ => rfl
  | .file _, _ => rfl

theorem entNames_insEntry_contains (n m : String) (c : FsTree) :
    ∀ es : FsTree,
      (entNames (insEntry n c es)).contains m = (entNames (.dcons n c es)).contains m
  | .dcons k u r => by
      unfold insEntry
      by_cases h : strLt n k = true
      · rw [if_pos h]
      · rw [if_neg h]
        simp only [entNames, List.contains_cons, entNames_insEntry_contains n m c r]
        simp [entNames, Bool.or_left_comm, Bool.or_comm]
  | .dnil => by rfl
  | .file _ => by rfl

theorem isEntryList_insEntry (n : String) (c es : FsTree) :
    isEntryList (insEntry n c es) = true := by
  cases es with
  | file d => rfl
  | dnil => rfl
  | dcons m u r =>
      unfold insEntry
      by_cases h : strLt n m = true
      · rw [if_pos h]
        rfl
      · rw [if_neg h]
        rfl

theorem isFileAt_sortTree : ∀ (t : FsTree) (q : List String),
    isFileAt (sortTree t) q = isFileAt t q
  | .file _, _ => rfl
  | .dnil, _ => rfl
  | .dcons n c r, q => by
      rw [sortTree, isFileAt_insEntry]
      cases q with
      | nil => rfl
      | cons x rest =>
          simp only [isFileAt, isFileAt_sortTree c rest, isFileAt_sortTree r (x :: rest)]

theorem entNames_sortTree_contains (m : String) :
    ∀ t : FsTree, (entNames (sortTree t)).contains m = (entNames t).contains m
  | .file _ => rfl
  | .dnil => rfl
  | .dcons n c r => by
      rw [sortTree, entNames_insEntry_contains]
      have hr := entNames_sortTree_contains m r
      simp only [List.contains, List.elem_eq_mem] at hr
      simp [entNames, hr]

theorem isEntryList_sortTree (t : FsTree) (h : isEntryList t = true) :
    isEntryList (sortTree t) = true := by
  cases t with
  | file d => cases h
  | dnil => rfl
  | dcons n c r => exact isEntryList_insEntry _ _ _

theorem isFileAt_nil_of_entryList (r : FsTree) (h : isEntryList r = true) :
    isFileAt r [] = false := by
  cases r with
  | file d => cases h
  | dnil => rfl
  | dcons n c rest => rfl

theorem isFileAt_head_mem : ∀ (r : FsTree) (x : String) (rest : List String),
    isFileAt r (x :: rest) = true → (entNames r).contains x = true
  | .file _, _, _, h => Bool.noConfusion h
  | .dnil, _, _, h => Bool.noConfusion h
  | .dcons m u rr, x, rest, h => by
      simp only [isFileAt, Bool.or_eq_true] at h
      rcases h with h1 | h1
      · by_cases hmx : m = x
        · simp [entNames, List.contains_cons, hmx]
        · rw [if_neg hmx] at h1
          cases h1
      · have h2 := isFileAt_head_mem rr x rest h1
        simp only [List.contains, List.elem_eq_mem] at h2
        simp [entNames, List.contains_cons, h2]

theorem treeWf_insEntry (n : String) (c : FsTree) :
    ∀ es : FsTree, goodEntryName n = true → treeWf c = true → treeWf es = true →
      isEntryList es = true → (entNames es).contains n = false →
      treeWf (insEntry n c es) = true
  | .file _, _, _, _, hel, _ => by cases hel
  | .dnil, hgn, hwc, _, _, _ => by
      simp [insEntry, treeWf, hgn, hwc, entNames, isEntryList]
  | .dcons m u r, hgn, hwc, hwf, _, hnc => by
      simp only [treeWf, Bool.and_eq_true] at hwf
      obtain ⟨⟨⟨⟨hgm, hwu⟩, hwr⟩, helr⟩, hncr⟩ := hwf
      have hncr' : m ∉ entNames r := by simpa using hncr
      have hnne : ¬(n = m ∨ n ∈ entNames r) := by simpa [entNames] using hnc
      push_neg at hnne
      unfold insEntry
      by_cases h : strLt n m = true
      · rw [if_pos h]
        simp only [treeWf, Bool.and_eq_true]
        refine ⟨⟨⟨⟨hgn, hwc⟩, ?_⟩, rfl⟩, ?_⟩
        · exact ⟨⟨⟨⟨hgm, hwu⟩, hwr⟩, helr⟩, hncr⟩
        · simp [entNames, hnne.1, hnne.2]
      · rw [if_neg h]
        have hrec := treeWf_insEntry n c r hgn hwc hwr helr (by simpa using hnne.2)
        simp only [treeWf, Bool.and_eq_true]
        refine ⟨⟨⟨⟨hgm, hwu⟩, hrec⟩, isEntryList_insEntry n c r⟩, ?_⟩
        rw [entNames_insEntry_contains]
        have hmn : m ≠ n := fun hc => hnne.1 hc.symm
        simp [entNames, hmn, hncr']

theorem treeWf_sortTree : ∀ t : FsTree, treeWf t = true → treeWf (sortTree t) = true
  | .file _, _ => rfl
  | .dnil, _ => rfl
  | .dcons n c r, hwf => by
      simp only [treeWf, Bool.and_eq_true] at hwf
      obtain ⟨⟨⟨⟨hgn, hwc⟩, hwr⟩, helr⟩, hnc⟩ := hwf
      rw [sortTree]
      refine treeWf_insEntry n (sortTree c) (sortTree r) hgn (treeWf_sortTree c hwc)
        (treeWf_sortTree r hwr) (isEntryList_sortTree r helr) ?_
      rw [entNames_sortTree_contains]
      simpa using hnc

/-- Membership in the walk output: exactly the files whose entire relative
path passes the per-entry name checks, each shifted by the prefix. -/
theorem mem_walkNode : ∀ (t : FsTree) (pre p : List String), treeWf t = true →
    (p ∈ walkNode pre t ↔
      ∃ q, p = pre ++ q ∧ isFileAt t q = true ∧ ∀ x ∈ q, entryOk x = true)
  | .file d, pre, p, _ => by
      simp only [walkNode, List.mem_singleton]
      constructor
      · intro hp
        exact ⟨[], by simpa using hp, rfl, by simp⟩
      · rintro ⟨q, hq, hf, -⟩
        cases q with
        | nil => simpa using hq
        | cons x rest => exact Bool.noConfusion hf
  | .dnil, pre, p, _ => by
      simp only [walkNode]
      constructor
      · intro hp
        exact absurd hp (List.not_mem_nil p)
      · rintro ⟨q, hq, hf, -⟩
        exact Bool.noConfusion hf
  | .dcons n c r, pre, p, hwf => by
      simp only [treeWf, Bool.and_eq_true] at hwf
      obtain ⟨⟨⟨⟨hgn, hwc⟩, hwr⟩, helr⟩, hnc⟩ := hwf
      constructor
      · intro hp
        rw [walkNode] at hp
        rcases List.mem_append.mp hp with hp | hp
        · by_cases hok : entryOk n = true
          · rw [if_pos hok] at hp
            obtain ⟨q', hq', hf', hok'⟩ := (mem_walkNode c (pre ++ [n]) p hwc).mp hp
            refine ⟨n :: q', by simp [hq'], ?_, ?_⟩
            · simp [isFileAt, hf']
            · intro x hx
              rcases List.mem_cons.mp hx with hx | hx
              · rw [hx]
                exact hok
              · exact hok' x hx
          · rw [if_neg hok] at hp
            exact absurd hp (List.not_mem_nil p)
        · obtain ⟨q, hq, hf, hok⟩ := (mem_walkNode r pre p hwr).mp hp
          cases q with
          | nil =>
              rw [isFileAt_nil_of_entryList r helr] at hf
              exact Bool.noConfusion hf
          | cons x rest =>
              refine ⟨x :: rest, hq, ?_, hok⟩
              simp [isFileAt, hf]
      · rintro ⟨q, hq, hf, hok⟩
        cases q with
        | nil => exact Bool.noConfusion hf
        | cons x rest =>
            simp only [isFileAt, Bool.or_eq_true] at hf
            rw [walkNode]
            rcases hf with hf | hf
            · by_cases hnx : n = x
              · subst hnx
                rw [if_pos rfl] at hf
                refine List.mem_append.mpr (Or.inl ?_)
                rw [if_pos (hok n (by simp))]
                refine (mem_walkNode c (pre ++ [n]) p hwc).mpr ⟨rest, ?_, hf, ?_⟩
                · simp [hq]
                · intro y hy
                  exact hok y (by simp [hy])
              · rw [if_neg hnx] at hf
                exact Bool.noConfusion hf
            · refine List.mem_append.mpr (Or.inr ?_)
              exact (mem_walkNode r pre p hwr).mpr ⟨x :: rest, hq, hf, hok⟩

theorem pathLt_append_lt : ∀ (pre : List String) (n x : String) (s s' : List String),
    strLt n x = true → pathLt (pre ++ n :: s) (pre ++ x :: s') = true
  | [], n, x, s, s', h => by simp [pathLt, h]
  | a :: rest, n, x, s, s', h => by
      simp only [List.cons_append, pathLt]
      rw [if_neg (by simp [strLt_irrefl a])]
      simp only [if_true]
      exact pathLt_append_lt rest n x s s' h

theorem headLt_insEntry (m n : String) (c' : FsTree) :
    ∀ r : FsTree, strLt m n = true → headLt m r = true → headLt m (insEntry n c' r) = true
  | .file _, h1, _ => by simp [insEntry, headLt, h1]
  | .dnil, h1, _ => by simp [insEntry, headLt, h1]
  | .dcons k u rr, h1, h2 => by
      unfold insEntry
      by_cases h : strLt n k = true
      · rw [if_pos h]
        simpa [headLt] using h1
      · rw [if_neg h]
        simpa [headLt] using h2

theorem sortedB_insEntry (n : String) (c' : FsTree) :
    ∀ es : FsTree, entriesSortedB c' = true → entriesSortedB es = true →
      treeWf es = true → (entNames es).contains n = false →
      entriesSortedB (insEntry n c' es) = true
  | .file _, hc, _, _, _ => by simp [insEntry, entriesSortedB, headLt, hc]
  | .dnil, hc, _, _, _ => by simp [insEntry, entriesSortedB, headLt, hc]
  | .dcons m u r, hc, hs, hwf, hnc => by
      simp only [entriesSortedB, Bool.and_eq_true] at hs
      obtain ⟨⟨hhl, hsu⟩, hsr⟩ := hs
      simp only [treeWf, Bool.and_eq_true] at hwf
      obtain ⟨⟨⟨⟨hgm, hwu⟩, hwr⟩, helr⟩, hncr⟩ := hwf
      have hnotmem : ¬(n = m ∨ n ∈ entNames r) := by simpa [entNames] using hnc
      push_neg at hnotmem
      unfold insEntry
      by_cases h : strLt n m = true
      · rw [if_pos h]
        simp only [entriesSortedB, headLt, Bool.and_eq_true]
        exact ⟨⟨h, hc⟩, ⟨⟨hhl, hsu⟩, hsr⟩⟩
      · rw [if_neg h]
        have hmn : strLt m n = true := by
          rcases strLt_total n m with he | hlt | hgt
          · exact absurd he hnotmem.1
          · exact absurd hlt h
          · exact hgt
        simp only [entriesSortedB, Bool.and_eq_true]
        refine ⟨⟨headLt_insEntry m n c' r hmn hhl, hsu⟩, ?_⟩
        exact sortedB_insEntry n c' r hc hsr hwr (by simpa using hnotmem.2)

theorem sortedB_sortTree : ∀ t : FsTree, treeWf t = true → entriesSortedB (sortTree t) = true
  | .file _, _ => rfl
  | .dnil, _ => rfl
  | .dcons n c r, hwf => by
      simp only [treeWf, Bool.and_eq_true] at hwf
      obtain ⟨⟨⟨⟨hgn, hwc⟩, hwr⟩, helr⟩, hnc⟩ := hwf
      rw [sortTree]
      refine sortedB_insEntry n (sortTree c) (sortTree r) (sortedB_sortTree c hwc)
        (sortedB_sortTree r hwr) (treeWf_sortTree r hwr) ?_
      rw [entNames_sortTree_contains]
      simpa using hnc

theorem sortedB_all_lt : ∀ (r : FsTree) (n : String), headLt n r = true →
    entriesSortedB r = true → ∀ x, (entNames r).contains x = true → strLt n x = true
  | .file _, n, _, _, x, hx => by simp [entNames] at hx
  | .dnil, n, _, _, x, hx => by simp [entNames] at hx
  | .dcons m u rr, n, hhl, hs, x, hx => by
      simp only [entriesSortedB, Bool.and_eq_true] at hs
      obtain ⟨⟨hhl2, hsu⟩, hsr⟩ := hs
      have hhl' : strLt n m = true := by simpa [headLt] using hhl
      rcases (by simpa [entNames] using hx : x = m ∨ x ∈ entNames rr) with he | hmem
      · subst he
        exact hhl'
      · exact strLt_trans hhl' (sortedB_all_lt rr m hhl2 hsr x (by simpa using hmem))

theorem walk_pairwise : ∀ (t : FsTree) (pre : List String), treeWf t = true →
    entriesSortedB t = true →
    List.Pairwise (fun p q => pathLt p q = true) (walkNode pre t)
  | .file _, pre, _, _ => by simp [walkNode]
  | .dnil, pre, _, _ => by simp [walkNode]
  | .dcons n c r, pre, hwf, hs => by
      simp only [treeWf, Bool.and_eq_true] at hwf
      obtain ⟨⟨⟨⟨hgn, hwc⟩, hwr⟩, helr⟩, hnc⟩ := hwf
      simp only [entriesSortedB, Bool.and_eq_true] at hs
      obtain ⟨⟨hhl, hsc⟩, hsr⟩ := hs
      rw [walkNode]
      refine List.pairwise_append.mpr ⟨?_, walk_pairwise r pre hwr hsr, ?_⟩
      · by_cases hok : entryOk n = true
        · rw [if_pos hok]
          exact walk_pairwise c (pre ++ [n]) hwc hsc
        · rw [if_neg hok]
          simp
      · intro p hp q hq
        by_cases hok : entryOk n = true
        case neg =>
          rw [if_neg hok] at hp
          exact absurd hp (List.not_mem_nil p)
        rw [if_pos hok] at hp
        obtain ⟨q1, hpq1, -, -⟩ := (mem_walkNode c (pre ++ [n]) p hwc).mp hp
        obtain ⟨q2, hq2, hfq2, -⟩ := (mem_walkNode r pre q hwr).mp hq
        cases q2 with
        | nil =>
            rw [isFileAt_nil_of_entryList r helr] at hfq2
            exact Bool.noConfusion hfq2
        | cons x s' =>
            have hx : (entNames r).contains x = true := isFileAt_head_mem r x s' hfq2
            have hlt : strLt n x = true := sortedB_all_lt r n hhl hsr x hx
            rw [hpq1, hq2]
            rw [show (pre ++ [n]) ++ q1 = pre ++ n :: q1 by simp]
            exact pathLt_append_lt pre n x q1 s' hlt

/-- C7: `list` never fails (it is a total function of the directory
snapshot), its output is deterministic and sorted by entry name at each
directory level (the walked file paths strictly increase in `pathLt`),
and a name is listed exactly when a regular file with the `.toml`
extension stands at the corresponding path with every component — file
name included — passing the character checks: files lacking the extension
are dropped, entries with forbidden or control characters are skipped
(for a directory, its entire subtree), and all other entries are kept,
without aborting the rest of the listing. -/
theorem c7_list_total_sorted_filtered (t : FsTree) (hwf : treeWf t = true) :
    List.Pairwise (fun p q => pathLt p q = true) (walkRoot t)
      ∧ ∀ s, s ∈ list t
          ↔ ∃ q, isFileAt t q = true ∧ (∀ x ∈ q, entryOk x = true)
              ∧ stripToml q = some s := by
  constructor
  · exact walk_pairwise (sortTree t) [] (treeWf_sortTree t hwf) (sortedB_sortTree t hwf)
  · intro s
    unfold list walkRoot
    rw [List.mem_filterMap]
    constructor
    · rintro ⟨p, hp, hs⟩
      obtain ⟨q, hpq, hf, hok⟩ :=
        (mem_walkNode (sortTree t) [] p (treeWf_sortTree t hwf)).mp hp
      rw [isFileAt_sortTree] at hf
      refine ⟨q, hf, hok, ?_⟩
      rw [hpq] at hs
      simpa using hs
    · rintro ⟨q, hf, hok, hs⟩
      refine ⟨q, ?_, hs⟩
      refine (mem_walkNode (sortTree t) [] q (treeWf_sortTree t hwf)).mpr
        ⟨q, by simp, ?_, hok⟩
      rw [isFileAt_sortTree]
      exact hf

/-- C7 witness: a snapshot holding two good records, a file without the
extension, a forbidden-character file and a forbidden-character directory
containing a record; the listing keeps exactly `team/api` and `zeta`,
in order. -/
theorem c7_list_total_sorted_filtered_witness :
    list tree0 = ["team/api", "zeta"]
      ∧ (List.Pairwise (fun p q => pathLt p q = true) (walkRoot tree0)
          ∧ ∀ s, s ∈ list tree0
              ↔ ∃ q, isFileAt tree0 q = true ∧ (∀ x ∈ q, entryOk x = true)
                  ∧ stripToml q = some s) :=
  ⟨rfl, c7_list_total_sorted_filtered tree0 (by decide)⟩

end Wsctl
